import Mathlib

/-!
Verification development for the smol-for-drx lattice Monte Carlo core.

Shallow embedding of:
  * `smol/moca/processor.py` (`ClusterExpansionProcessor`): correlation vectors,
    by-site orbit adjacency, delta correlations, property evaluation;
  * `smol/moca/sampler/kernel.py` (`MCKernel.__init__`, `Metropolis.single_step`,
    `UniformlyRandom.single_step`);
  * `smol/moca/sampler/metropolis.py` (`MetropolisSampler._attempt_step`);
  * `smol/moca/sampler/base.py` (`Sampler.sample`, `Sampler.run`);
  * `smol/moca/ensemble/sublattice.py` (`Sublattice.as_dict`, `Sublattice.from_dict`).

Machine floats are modelled as exact rationals; numpy arrays indexed by
natural numbers are modelled as functions `Nat -> Rat`; the Python pseudo
random stream is modelled as an explicit stream of uniform draws together
with a cursor position.
-/

/-- Encoded occupancy vector: the species code currently occupying each site. -/
abbrev Occu := ℕ → ℕ

/-- A single flip, as in `processor.py`: `(index of site, specie code to set)`. -/
abbrev Flip := ℕ × ℕ

/-- A proposed MC step: an ordered list of flips. -/
abbrev MCStep := List Flip

/-- Sequential in-place application of a step to an occupancy:
`for f in step: occupancy[f[0]] = f[1]`. -/
def applyStep (occu : Occu) (step : MCStep) : Occu :=
  step.foldl (fun o f => Function.update o f.1 f.2) occu

/-- One entry of `ClusterExpansionProcessor.orbit_list` (processor.py, `__init__`):
`(orbit.bit_id, orbit.bit_combos, orbit.bases_array, inds)`.  `bases` is the
basis-value array indexed by cluster position, basis-function index and species
code; `inds` is the array of concrete site-index tuples (one row per orbit
instance in the supercell). -/
structure Orbit where
  bit_id : ℕ
  bit_combos : List (List ℕ)
  bases : ℕ → ℕ → ℕ → ℚ
  inds : List (List ℕ)

/-- Product of single-site basis values over one orbit instance: position `j`
of the cluster contributes `bases j (combo j) (occu (inst j))`. -/
def clusterProd (bases : ℕ → ℕ → ℕ → ℚ) (occu : Occu) : ℕ → List ℕ → List ℕ → ℚ
  | _, [], _ => 1
  | _, _ :: _, [] => 1
  | j, b :: bs, x :: xs => bases j b (occu x) * clusterProd bases occu (j + 1) bs xs

/-- Sum of the instance products of one correlation function over a list of
orbit instances. -/
def instSum (bases : ℕ → ℕ → ℕ → ℚ) (occu : Occu) (combo : List ℕ)
    (inds : List (List ℕ)) : ℚ :=
  (inds.map (fun inst => clusterProd bases occu 0 combo inst)).sum

/-- Average of the instance products over a list of orbit instances. -/
def instMean (bases : ℕ → ℕ → ℕ → ℚ) (occu : Occu) (combo : List ℕ)
    (inds : List (List ℕ)) : ℚ :=
  instSum bases occu combo inds / (inds.length : ℚ)

/-- Contribution of one orbit to the correlation entry at feature index `idx`:
the `k`-th bit combination fills entry `bit_id + k` with the instance average.
`pos` carries `bit_id + k` through the recursion. -/
def combosAt (bases : ℕ → ℕ → ℕ → ℚ) (occu : Occu) (inds : List (List ℕ))
    (idx : ℕ) : ℕ → List (List ℕ) → ℚ
  | _, [] => 0
  | pos, c :: cs =>
      (if pos = idx then instMean bases occu c inds else 0)
        + combosAt bases occu inds idx (pos + 1) cs

/-- Modelled from the spec: `corr_from_occupancy` (imported by processor.py from
`src.ce_utils`, which is not part of the sources).  Spec 4.2: for each orbit,
average the product of single-site basis-function values, selected by the
orbit's bit-combination and the occupancy at the instance sites, over all
instances; the zero-point (constant) entry is always 1. -/
def corr_from_occupancy (orbit_list : List Orbit) (occu : Occu) (idx : ℕ) : ℚ :=
  if idx = 0 then 1
  else (orbit_list.map (fun o => combosAt o.bases occu o.inds idx o.bit_id o.bit_combos)).sum

/-- One entry of `ClusterExpansionProcessor.orbits_by_sites[site]`:
`(orbit.bit_id, ratio, orbit.bit_combos, orbit.bases_array, inds[in_inds])`. -/
structure SiteOrbit where
  bit_id : ℕ
  ratio : ℚ
  bit_combos : List (List ℕ)
  bases : ℕ → ℕ → ℕ → ℚ
  inds : List (List ℕ)

/-- The rows of an instance array that contain a given site index,
`inds[np.any(inds == site_ind, axis=-1)]`. -/
def rowsWithSite (s : ℕ) (inds : List (List ℕ)) : List (List ℕ) :=
  inds.filter (fun row => decide (s ∈ row))

/-- The by-site adjacency entry built in `ClusterExpansionProcessor.__init__` for
one orbit and one site: `ratio = len(inds) / np.sum(in_inds)` and the reduced
index array keeping only the rows containing the site. -/
def siteEntry (o : Orbit) (s : ℕ) : SiteOrbit :=
  { bit_id := o.bit_id
    ratio := (o.inds.length : ℚ) / ((rowsWithSite s o.inds).length : ℚ)
    bit_combos := o.bit_combos
    bases := o.bases
    inds := rowsWithSite s o.inds }

/-- The per-site view of the `orbits_by_sites` dictionary built in
`ClusterExpansionProcessor.__init__`: site `s` receives one entry per orbit
whose instance array mentions `s`, in orbit-list order. -/
def orbitsBySites (orbit_list : List Orbit) (s : ℕ) : List SiteOrbit :=
  (orbit_list.filter (fun o => o.inds.any (fun row => decide (s ∈ row)))).map
    (fun o => siteEntry o s)

/-- Delta contribution of one by-site entry at feature index `idx`: the `k`-th
bit combination fills entry `bit_id + k` with the difference of the reduced
instance averages after and before the flip, scaled by the ratio. -/
def combosDeltaAt (bases : ℕ → ℕ → ℕ → ℚ) (occu_f occu_i : Occu)
    (inds : List (List ℕ)) (r : ℚ) (idx : ℕ) : ℕ → List (List ℕ) → ℚ
  | _, [] => 0
  | pos, c :: cs =>
      (if pos = idx then
          (instMean bases occu_f c inds - instMean bases occu_i c inds) / r
        else 0)
        + combosDeltaAt bases occu_f occu_i inds r idx (pos + 1) cs

/-- Modelled from the spec: `delta_corr_single_flip` (imported by processor.py
from `src.ce_utils`, which is not part of the sources).  Spec 4.2: for a flip
at one site, recompute the product terms before and after the flip over the
subset of instances containing that site, scaled by the stored ratio, and
accumulate the difference for each touched feature entry. -/
def delta_corr_single_flip (occu_f occu_i : Occu) (site_orbits : List SiteOrbit)
    (idx : ℕ) : ℚ :=
  (site_orbits.map
      (fun e => combosDeltaAt e.bases occu_f occu_i e.inds e.ratio idx e.bit_id e.bit_combos)).sum

/-- `ClusterExpansionProcessor`: the orbit list, the feature-vector length
`n_orbit_functions`, the coefficient vector `ecis` and the supercell size
(number of primitive cells). -/
structure Processor where
  orbit_list : List Orbit
  n_orbit_functions : ℕ
  ecis : ℕ → ℚ
  size : ℕ

/-- `ClusterExpansionProcessor.orbits_by_sites[s]`. -/
def Processor.orbits_by_sites (P : Processor) (s : ℕ) : List SiteOrbit :=
  orbitsBySites P.orbit_list s

/-- `ClusterExpansionProcessor.compute_correlation`. -/
def Processor.compute_correlation (P : Processor) (occu : Occu) (idx : ℕ) : ℚ :=
  corr_from_occupancy P.orbit_list occu idx

/-- `ClusterExpansionProcessor.delta_corr`: apply each flip sequentially to an
intermediate occupancy copy, looking up the by-site entries of the flipped
site and accumulating the single-flip deltas. -/
def Processor.delta_corr (P : Processor) : MCStep → Occu → ℕ → ℚ
  | [], _, _ => 0
  | f :: fs, occu, idx =>
      delta_corr_single_flip (Function.update occu f.1 f.2) occu
          (orbitsBySites P.orbit_list f.1) idx
        + Processor.delta_corr P fs (Function.update occu f.1 f.2) idx

/-- `np.dot` of two vectors over indices `0, ..., n-1`. -/
def dotRange (v w : ℕ → ℚ) : ℕ → ℚ
  | 0 => 0
  | n + 1 => dotRange v w n + v n * w n

/-- `ClusterExpansionProcessor.compute_property`:
`np.dot(self.compute_correlation(occu), self.ecis) * self.size`. -/
def Processor.compute_property (P : Processor) (occu : Occu) : ℚ :=
  dotRange (P.compute_correlation occu) P.ecis P.n_orbit_functions * (P.size : ℚ)

/-- `ClusterExpansionProcessor.compute_property_change`:
`np.dot(self.delta_corr(flips, occu), self.ecis) * self.size`. -/
def Processor.compute_property_change (P : Processor) (occu : Occu) (flips : MCStep) : ℚ :=
  dotRange (P.delta_corr flips occu) P.ecis P.n_orbit_functions * (P.size : ℚ)

/-- The Python pseudo random stream: the successive uniform draws and the
cursor of the next draw. -/
structure RNG where
  stream : ℕ → ℚ
  pos : ℕ

/-- The data a transition kernel reads: the natural parameter vector and its
length, the feature-change function of the ensemble, the optional bias, the
inverse temperature, the logarithm applied to uniform draws, and the usher
proposal function (which may itself consume draws). -/
structure KernelCfg where
  natural_params : ℕ → ℚ
  nfeat : ℕ
  feature_change : Occu → MCStep → (ℕ → ℚ)
  bias : Option (Occu → MCStep → ℚ)
  beta : ℚ
  rlog : ℚ → ℚ
  propose : Occu → RNG → MCStep × RNG

/-- The values a `single_step` call produces before packing the return tuple. -/
structure AttemptOut where
  accept : Bool
  occu : Occu
  feat : ℕ → ℚ
  enth : ℚ

/-- A dynamically typed Python value, used to model the heterogeneous return
tuples of `single_step` and `_attempt_step` positionally. -/
inductive PyVal where
  | bool : Bool → PyVal
  | occu : Occu → PyVal
  | num : ℚ → PyVal
  | vec : (ℕ → ℚ) → PyVal

/-- `delta_bias = 0 if self._bias is None else self._bias.compute_bias_change(...)`. -/
def biasOf (K : KernelCfg) (occu : Occu) (step : MCStep) : ℚ :=
  match K.bias with
  | none => 0
  | some b => b occu step

/-- The step proposed by the usher inside a `single_step` call. -/
def proposalOf (K : KernelCfg) (occu : Occu) (g : RNG) : MCStep :=
  (K.propose occu g).1

/-- The Metropolis acceptance exponent
`-self.beta * delta_enthalpy + delta_bias` of a `single_step` call. -/
def exponentOf (K : KernelCfg) (occu : Occu) (g : RNG) : ℚ :=
  -K.beta * dotRange K.natural_params (K.feature_change occu (proposalOf K occu g)) K.nfeat
    + biasOf K occu (proposalOf K occu g)

/-- `Metropolis.single_step` (kernel.py): propose, compute the feature change
and enthalpy change, compute the exponent, accept unconditionally when the
exponent is nonnegative and otherwise compare against the log of one fresh
uniform draw; on acceptance apply the step to the occupancy. -/
def metropolis_core (K : KernelCfg) (occupancy : Occu) (g : RNG) : AttemptOut × RNG :=
  let pr := K.propose occupancy g
  let step := pr.1
  let g1 := pr.2
  let delta_features := K.feature_change occupancy step
  let delta_enthalpy := dotRange K.natural_params delta_features K.nfeat
  let delta_bias := biasOf K occupancy step
  let exponent := -K.beta * delta_enthalpy + delta_bias
  if 0 ≤ exponent then
    (⟨true, applyStep occupancy step, delta_features, delta_enthalpy⟩, g1)
  else
    let u := g1.stream g1.pos
    let g2 : RNG := ⟨g1.stream, g1.pos + 1⟩
    let accept := decide (K.rlog u < exponent)
    (⟨accept, if accept then applyStep occupancy step else occupancy,
        delta_features, delta_enthalpy⟩, g2)

/-- The return tuple of `Metropolis.single_step` (kernel.py):
`return accept, occupancy, delta_enthalpy, delta_features`. -/
def metropolis_single_step (K : KernelCfg) (occupancy : Occu) (g : RNG) :
    List PyVal × RNG :=
  let r := metropolis_core K occupancy g
  ([PyVal.bool r.1.accept, PyVal.occu r.1.occu, PyVal.num r.1.enth,
      PyVal.vec r.1.feat], r.2)

/-- `UniformlyRandom.single_step` (kernel.py): every proposed step is applied
and the call returns `True, occupancy, delta_enthalpy, delta_features`. -/
def uniformly_random_single_step (K : KernelCfg) (occupancy : Occu) (g : RNG) :
    List PyVal × RNG :=
  let pr := K.propose occupancy g
  let step := pr.1
  let delta_features := K.feature_change occupancy step
  let delta_enthalpy := dotRange K.natural_params delta_features K.nfeat
  ([PyVal.bool true, PyVal.occu (applyStep occupancy step),
      PyVal.num delta_enthalpy, PyVal.vec delta_features], pr.2)

/-- `MetropolisSampler._attempt_step` (metropolis.py): accept when the enthalpy
change is nonpositive, otherwise compare `-beta * delta_enthalpy` against the
log of one fresh uniform draw; no bias is involved. -/
def sampler_attempt_core (K : KernelCfg) (occupancy : Occu) (g : RNG) :
    AttemptOut × RNG :=
  let pr := K.propose occupancy g
  let step := pr.1
  let g1 := pr.2
  let delta_features := K.feature_change occupancy step
  let delta_enthalpy := dotRange K.natural_params delta_features K.nfeat
  if delta_enthalpy ≤ 0 then
    (⟨true, applyStep occupancy step, delta_features, delta_enthalpy⟩, g1)
  else
    let u := g1.stream g1.pos
    let g2 : RNG := ⟨g1.stream, g1.pos + 1⟩
    let accept := decide (K.rlog u < -K.beta * delta_enthalpy)
    (⟨accept, if accept then applyStep occupancy step else occupancy,
        delta_features, delta_enthalpy⟩, g2)

/-- The return tuple of `MetropolisSampler._attempt_step` (metropolis.py):
`return accept, occupancy, delta_features, delta_enthalpy`. -/
def sampler_attempt_step (K : KernelCfg) (occupancy : Occu) (g : RNG) :
    List PyVal × RNG :=
  let r := sampler_attempt_core K occupancy g
  ([PyVal.bool r.1.accept, PyVal.occu r.1.occu, PyVal.vec r.1.feat,
      PyVal.num r.1.enth], r.2)

/-- `ALL_MCUSHERS` (kernel.py). -/
def ALL_MCUSHERS : List (String × String) :=
  [("flip", "Flipper"), ("swap", "Swapper")]

/-- `ALL_BIAS` (kernel.py): the registry of bias classes is empty. -/
def ALL_BIAS : List (String × String) := []

/-- Python dict lookup returning `none` on a missing key (a `KeyError`). -/
def dictGet (d : List (String × String)) (k : String) : Option String :=
  match d with
  | [] => none
  | (k2, v) :: rest => if k2 = k then some v else dictGet rest k

/-- `MCKernel.__init__` dispatch (kernel.py): `self.valid_mcushers[step_type]`
raising `ValueError` on a `KeyError`, then `self.valid_bias[bias_type]`
raising `ValueError` on a `KeyError`.  A `bias_type` of `None` is looked up as
a dict key and is never present, and `ALL_BIAS` is empty, so the bias lookup
always raises. -/
def mckernel_init (valid_mcushers valid_bias : List (String × String))
    (step_type : String) (bias_type : Option String) :
    Except String (String × String) :=
  match dictGet valid_mcushers step_type with
  | none => Except.error ("Step type " ++ step_type ++ " is not valid for a MCKernel.")
  | some usher =>
      match bias_type with
      | none => Except.error "Bias type None is not valid for a MCKernel."
      | some bt =>
          match dictGet valid_bias bt with
          | none => Except.error ("Bias type " ++ bt ++ " is not valid for a MCKernel.")
          | some b => Except.ok (usher, b)

/-- `Metropolis.__init__` through `MCKernel.__init__` with the class registries
of kernel.py. -/
def metropolis_init (step_type : String) (bias_type : Option String) :
    Except String (String × String) :=
  mckernel_init ALL_MCUSHERS ALL_BIAS step_type bias_type

/-- One saved sample of `Sampler.sample` (base.py): the running acceptance
count, the occupancy, the feature blob and the enthalpy. -/
structure Snapshot where
  accepted : ℕ
  occu : Occu
  feat : ℕ → ℚ
  enth : ℚ

/-- The mutable loop state of `Sampler.sample` for one walker. -/
structure WState where
  accepted : ℕ
  occu : Occu
  feat : ℕ → ℚ
  enth : ℚ
  rng : RNG

/-- The inner `for _ in range(thin_by)` loop of `Sampler.sample`: attempt one
step per iteration, accumulating the acceptance count and overwriting the
occupancy, feature blob and enthalpy. -/
def innerLoop (K : KernelCfg) : ℕ → WState → WState
  | 0, w => w
  | n + 1, w =>
      let r := sampler_attempt_core K w.occu w.rng
      innerLoop K n
        ⟨w.accepted + (if r.1.accept then 1 else 0), r.1.occu, r.1.feat, r.1.enth, r.2⟩

/-- The outer `for _ in range(nsteps // thin_by)` loop of `Sampler.sample`:
run `thin_by` attempts, then yield a copy of the current state. -/
def sampleChain (K : KernelCfg) (thin_by : ℕ) : ℕ → WState → List Snapshot
  | 0, _ => []
  | n + 1, w =>
      let w2 := innerLoop K thin_by w
      ⟨w2.accepted, w2.occu, w2.feat, w2.enth⟩ :: sampleChain K thin_by n w2

/-- `Sampler.sample` (base.py) for one walker: all yielded samples of a run of
`nsteps` iterations thinned by `thin_by`, starting from an initial occupancy
and a pseudo random stream. -/
def sampler_sample (K : KernelCfg) (nsteps : ℕ) (initial : Occu) (thin_by : ℕ)
    (g : RNG) : List Snapshot :=
  sampleChain K thin_by (nsteps / thin_by) ⟨0, initial, fun _ => 0, 0, g⟩

/-- `Sampler.run` (base.py).  Modelled from the spec for the excluded
`SampleContainer`: `samples.get_occupancy_chain()` is the list of previously
saved occupancies, and indexing `[-1]` on an empty chain raises `IndexError`,
which `run` converts to a fatal `RuntimeError`. -/
def sampler_run (K : KernelCfg) (chain : List Occu) (nsteps : ℕ)
    (initial : Option Occu) (thin_by : ℕ) (g : RNG) :
    Except String (List Snapshot) :=
  match initial with
  | none =>
      match chain.getLast? with
      | none =>
          Except.error
            "There are no saved samples to obtain the initial occupancies. These must be provided."
      | some occ => Except.ok (sampler_sample K nsteps occ thin_by g)
  | some occ => Except.ok (sampler_sample K nsteps occ thin_by g)

/-- `Sublattice` (ensemble/sublattice.py): the ordered site space, the site
index array and the active site array. -/
structure SLattice where
  site_space : List (String × ℚ)
  sites : List ℕ
  active_sites : List ℕ

/-- A value stored in a serialization dict of a sublattice. -/
inductive DVal where
  | sspace : List (String × ℚ) → DVal
  | ints : List ℕ → DVal

/-- `Sublattice.as_dict`: emits exactly the keys `site_space`, `sites` and
`active_sites`. -/
def sublattice_as_dict (s : SLattice) : List (String × DVal) :=
  [("site_space", DVal.sspace s.site_space),
   ("sites", DVal.ints s.sites),
   ("active_sites", DVal.ints s.active_sites)]

/-- Python dict lookup for serialization dicts, `none` meaning `KeyError`. -/
def dictLookup (d : List (String × DVal)) (k : String) : Option DVal :=
  match d with
  | [] => none
  | (k2, v) :: rest => if k2 = k then some v else dictLookup rest k

/-- `Sublattice.from_dict`: reads `site_space`, `sites` and `active_sites`,
then evaluates `d['restricted_sites']` (raising `KeyError` when absent) and
would assign it to the setter-less `restricted_sites` property (raising
`AttributeError` when present). -/
def sublattice_from_dict (d : List (String × DVal)) : Except String SLattice :=
  match dictLookup d "site_space" with
  | none => Except.error "KeyError: site_space"
  | some (DVal.ints _) => Except.error "TypeError: site_space"
  | some (DVal.sspace _ss) =>
      match dictLookup d "sites" with
      | none => Except.error "KeyError: sites"
      | some (DVal.sspace _) => Except.error "TypeError: sites"
      | some (DVal.ints _sts) =>
          match dictLookup d "active_sites" with
          | none => Except.error "KeyError: active_sites"
          | some (DVal.sspace _) => Except.error "TypeError: active_sites"
          | some (DVal.ints _acts) =>
              match dictLookup d "restricted_sites" with
              | none => Except.error "KeyError: restricted_sites"
              | some _ =>
                  Except.error "AttributeError: property restricted_sites has no setter"

/-- A concrete one-orbit system for evaluation: a pair-free toy orbit with two
singleton instances on sites 0 and 1, basis value +1 for species 0 and -1
otherwise. -/
def orbitW : Orbit :=
  { bit_id := 1
    bit_combos := [[0]]
    bases := fun _ _ spc => if spc = 0 then 1 else -1
    inds := [[0], [1]] }

/-- A concrete processor over `orbitW`. -/
def procW : Processor :=
  { orbit_list := [orbitW]
    n_orbit_functions := 2
    ecis := fun _ => 1
    size := 2 }

/-- A concrete pseudo random stream: every draw is one half. -/
def rngW : RNG :=
  { stream := fun _ => 1 / 2
    pos := 0 }

/-- A concrete kernel whose usher always proposes the empty step and which has
no bias configured. -/
def kernelEmptyStep : KernelCfg :=
  { natural_params := fun _ => 1
    nfeat := 1
    feature_change := fun _ _ => fun _ => 0
    bias := none
    beta := 1
    rlog := fun u => u - 1
    propose := fun _ g => ([], g) }

/-- A concrete kernel whose proposed step has a strictly negative acceptance
exponent. -/
def kernelNeg : KernelCfg :=
  { natural_params := fun _ => 1
    nfeat := 1
    feature_change := fun _ _ => fun _ => 1
    bias := none
    beta := 1
    rlog := fun u => u - 1
    propose := fun _ g => ([(0, 1)], g) }

/-! ### Helper lemmas -/

theorem clusterProd_congr (bases : ℕ → ℕ → ℕ → ℚ) (occu occu2 : Occu) :
    ∀ (combo inst : List ℕ) (j : ℕ), (∀ x ∈ inst, occu x = occu2 x) →
      clusterProd bases occu j combo inst = clusterProd bases occu2 j combo inst := by
  intro combo
  induction combo with
  | nil => intro inst j _; rfl
  | cons b bs ih =>
    intro inst j h
    cases inst with
    | nil => rfl
    | cons x xs =>
      simp only [clusterProd]
      rw [h x (List.mem_cons_self x xs),
        ih xs (j + 1) (fun y hy => h y (List.mem_cons_of_mem x hy))]

theorem instSum_cons (bases : ℕ → ℕ → ℕ → ℚ) (occu : Occu) (combo row : List ℕ)
    (rest : List (List ℕ)) :
    instSum bases occu combo (row :: rest)
      = clusterProd bases occu 0 combo row + instSum bases occu combo rest := by
  simp [instSum]

theorem instSum_localize (bases : ℕ → ℕ → ℕ → ℚ) (occu : Occu) (s sp : ℕ)
    (combo : List ℕ) :
    ∀ inds : List (List ℕ),
      instSum bases (Function.update occu s sp) combo inds - instSum bases occu combo inds
        = instSum bases (Function.update occu s sp) combo (rowsWithSite s inds)
            - instSum bases occu combo (rowsWithSite s inds) := by
  intro inds
  induction inds with
  | nil => simp [rowsWithSite]
  | cons row rest ih =>
    by_cases hs : s ∈ row
    · have hfilter : rowsWithSite s (row :: rest) = row :: rowsWithSite s rest := by
        simp [rowsWithSite, List.filter_cons, hs]
      rw [hfilter, instSum_cons, instSum_cons, instSum_cons, instSum_cons]
      linear_combination ih
    · have hfilter : rowsWithSite s (row :: rest) = rowsWithSite s rest := by
        simp [rowsWithSite, List.filter_cons, hs]
      have hrow : clusterProd bases (Function.update occu s sp) 0 combo row
          = clusterProd bases occu 0 combo row := by
        apply clusterProd_congr
        intro x hx
        have hxs : x ≠ s := fun hxs => hs (by rw [← hxs]; exact hx)
        exact Function.update_noteq hxs sp occu
      rw [hfilter, instSum_cons, instSum_cons, hrow]
      linear_combination ih

theorem instMean_sub_localize (bases : ℕ → ℕ → ℕ → ℚ) (occu : Occu) (s sp : ℕ)
    (combo : List ℕ) (inds : List (List ℕ)) :
    instMean bases (Function.update occu s sp) combo inds - instMean bases occu combo inds
      = (instMean bases (Function.update occu s sp) combo (rowsWithSite s inds)
            - instMean bases occu combo (rowsWithSite s inds))
          / ((inds.length : ℚ) / ((rowsWithSite s inds).length : ℚ)) := by
  have hloc := instSum_localize bases occu s sp combo inds
  by_cases hm : (rowsWithSite s inds).length = 0
  · have hnil : rowsWithSite s inds = [] := List.length_eq_zero.mp hm
    rw [hnil] at hloc ⊢
    have hzero : instSum bases (Function.update occu s sp) combo ([] : List (List ℕ))
        - instSum bases occu combo ([] : List (List ℕ)) = 0 := by
      simp [instSum]
    rw [hzero] at hloc
    simp only [instMean, div_sub_div_same, hloc]
    simp [instSum]
  · have hmQ : ((rowsWithSite s inds).length : ℚ) ≠ 0 := Nat.cast_ne_zero.mpr hm
    have hn : inds.length ≠ 0 := by
      intro h0
      exact hm (Nat.le_antisymm (h0 ▸ List.length_filter_le _ inds) (Nat.zero_le _))
    have hnQ : (inds.length : ℚ) ≠ 0 := Nat.cast_ne_zero.mpr hn
    simp only [instMean, div_sub_div_same, hloc]
    field_simp

theorem combosDeltaAt_of_lt (bases : ℕ → ℕ → ℕ → ℚ) (occu_f occu_i : Occu)
    (inds : List (List ℕ)) (r : ℚ) (idx : ℕ) :
    ∀ (cs : List (List ℕ)) (pos : ℕ), idx < pos →
      combosDeltaAt bases occu_f occu_i inds r idx pos cs = 0 := by
  intro cs
  induction cs with
  | nil => intro pos _; rfl
  | cons c cs ih =>
    intro pos h
    simp only [combosDeltaAt]
    rw [if_neg (by omega), ih (pos + 1) (by omega), add_zero]

theorem combosDeltaAt_nil_inds (bases : ℕ → ℕ → ℕ → ℚ) (occu_f occu_i : Occu)
    (r : ℚ) (idx : ℕ) :
    ∀ (cs : List (List ℕ)) (pos : ℕ),
      combosDeltaAt bases occu_f occu_i ([] : List (List ℕ)) r idx pos cs = 0 := by
  intro cs
  induction cs with
  | nil => intro pos; rfl
  | cons c cs ih =>
    intro pos
    simp [combosDeltaAt, ih (pos + 1), instMean, instSum]

theorem combosAt_sub_localize (bases : ℕ → ℕ → ℕ → ℚ) (occu : Occu) (s sp idx : ℕ)
    (inds : List (List ℕ)) :
    ∀ (cs : List (List ℕ)) (pos : ℕ),
      combosAt bases (Function.update occu s sp) inds idx pos cs
          - combosAt bases occu inds idx pos cs
        = combosDeltaAt bases (Function.update occu s sp) occu (rowsWithSite s inds)
            ((inds.length : ℚ) / ((rowsWithSite s inds).length : ℚ)) idx pos cs := by
  intro cs
  induction cs with
  | nil => intro pos; simp [combosAt, combosDeltaAt]
  | cons c cs ih =>
    intro pos
    simp only [combosAt, combosDeltaAt]
    by_cases hp : pos = idx
    · rw [if_pos hp, if_pos hp, if_pos hp]
      have h1 := instMean_sub_localize bases occu s sp c inds
      have h2 := ih (pos + 1)
      linear_combination h1 + h2
    · rw [if_neg hp, if_neg hp, if_neg hp]
      have h2 := ih (pos + 1)
      linear_combination h2

theorem list_sum_map_sub {α : Type} (f g : α → ℚ) :
    ∀ L : List α, (L.map f).sum - (L.map g).sum = (L.map (fun o => f o - g o)).sum := by
  intro L
  induction L with
  | nil => simp
  | cons o L ih =>
    simp only [List.map_cons, List.sum_cons]
    linarith

theorem sum_map_filter_eq {α : Type} (p : α → Bool) (f : α → ℚ) :
    ∀ L : List α, (∀ a ∈ L, p a = false → f a = 0) →
      ((L.filter p).map f).sum = (L.map f).sum := by
  intro L
  induction L with
  | nil => intro _; rfl
  | cons a L ih =>
    intro h
    by_cases hp : p a = true
    · rw [List.filter_cons_of_pos hp]
      simp only [List.map_cons, List.sum_cons]
      rw [ih (fun b hb hb2 => h b (List.mem_cons_of_mem a hb) hb2)]
    · have hp2 : p a = false := by revert hp; cases p a <;> simp
      rw [List.filter_cons_of_neg (by simp [hp2])]
      simp only [List.map_cons, List.sum_cons]
      rw [ih (fun b hb hb2 => h b (List.mem_cons_of_mem a hb) hb2),
        h a (List.mem_cons_self a L) hp2, zero_add]

theorem corr_single_flip (L : List Orbit) (occu : Occu) (s sp idx : ℕ)
    (hbit : ∀ o ∈ L, 1 ≤ o.bit_id) :
    corr_from_occupancy L (Function.update occu s sp) idx - corr_from_occupancy L occu idx
      = delta_corr_single_flip (Function.update occu s sp) occu (orbitsBySites L s) idx := by
  by_cases h0 : idx = 0
  · subst h0
    rw [corr_from_occupancy, corr_from_occupancy, if_pos rfl, if_pos rfl, sub_self,
      delta_corr_single_flip]
    symm
    apply List.sum_eq_zero
    intro x hx
    rw [List.mem_map] at hx
    obtain ⟨e, he, rfl⟩ := hx
    rw [orbitsBySites, List.mem_map] at he
    obtain ⟨o, ho, rfl⟩ := he
    have hoL : o ∈ L := (List.mem_filter.mp ho).1
    have hb := hbit o hoL
    exact combosDeltaAt_of_lt _ _ _ _ _ _ _ _ (by simpa [siteEntry] using hb)
  · rw [corr_from_occupancy, corr_from_occupancy, if_neg h0, if_neg h0,
      delta_corr_single_flip, orbitsBySites, List.map_map, list_sum_map_sub]
    have hfun :
        (fun o : Orbit =>
            combosAt o.bases (Function.update occu s sp) o.inds idx o.bit_id o.bit_combos
              - combosAt o.bases occu o.inds idx o.bit_id o.bit_combos)
          = fun o : Orbit =>
              combosDeltaAt o.bases (Function.update occu s sp) occu (rowsWithSite s o.inds)
                ((o.inds.length : ℚ) / ((rowsWithSite s o.inds).length : ℚ)) idx o.bit_id
                o.bit_combos :=
      funext fun o => combosAt_sub_localize o.bases occu s sp idx o.inds o.bit_combos o.bit_id
    rw [hfun]
    symm
    apply sum_map_filter_eq
    intro o _ hfalse
    have hnil : rowsWithSite s o.inds = [] := by
      rw [rowsWithSite]
      rw [List.filter_eq_nil_iff]
      intro row hrow
      have := List.any_eq_false.mp hfalse row hrow
      simpa using this
    rw [Function.comp_apply]
    show combosDeltaAt (siteEntry o s).bases _ _ (siteEntry o s).inds (siteEntry o s).ratio idx
        (siteEntry o s).bit_id (siteEntry o s).bit_combos = 0
    simp only [siteEntry, hnil]
    exact combosDeltaAt_nil_inds _ _ _ _ _ _ _

theorem dotRange_eq_finset_sum (v w : ℕ → ℚ) :
    ∀ n : ℕ, dotRange v w n = ∑ i in Finset.range n, v i * w i := by
  intro n
  induction n with
  | zero => simp [dotRange]
  | succ n ih => rw [dotRange, Finset.sum_range_succ, ih]

theorem dotRange_zero_right (v : ℕ → ℚ) : ∀ n : ℕ, dotRange v (fun _ => 0) n = 0 := by
  intro n
  induction n with
  | zero => rfl
  | succ n ih => rw [dotRange, ih]; ring

/-! ### Claims -/

/-- C1: for every occupancy and every step, the difference of full correlation
vectors across the step equals `delta_corr` of the step, entrywise and exactly
(floats are modelled as exact rationals), with `delta_corr` applying each site
reassignment of the step sequentially to an intermediate occupancy copy.  The
hypothesis states the well-formedness of the orbit data: every orbit fills
feature entries strictly after the constant entry 0, as `bit_id` does in the
source. -/
theorem delta_corr_consistent (P : Processor) (occu : Occu) (step : MCStep) (idx : ℕ)
    (hbit : ∀ o ∈ P.orbit_list, 1 ≤ o.bit_id) :
    P.compute_correlation (applyStep occu step) idx - P.compute_correlation occu idx
      = P.delta_corr step occu idx := by
  induction step generalizing occu with
  | nil => simp [applyStep, Processor.delta_corr]
  | cons f fs ih =>
    have happ : applyStep occu (f :: fs) = applyStep (Function.update occu f.1 f.2) fs := rfl
    have h1 := corr_single_flip P.orbit_list occu f.1 f.2 idx hbit
    have h2 := ih (Function.update occu f.1 f.2)
    rw [happ, Processor.delta_corr]
    simp only [Processor.compute_correlation] at h1 h2 ⊢
    linarith

/-- Witness for C1 at a concrete processor, occupancy and one-flip step. -/
theorem delta_corr_consistent_witness :
    (∀ o ∈ procW.orbit_list, 1 ≤ o.bit_id)
      ∧ procW.compute_correlation (applyStep (fun _ => 0) [(0, 1)]) 1
            - procW.compute_correlation (fun _ => 0) 1
          = procW.delta_corr [(0, 1)] (fun _ => 0) 1 := by
  have hb : ∀ o ∈ procW.orbit_list, 1 ≤ o.bit_id := by
    intro o ho
    simp only [procW, List.mem_singleton] at ho
    subst ho
    norm_num [orbitW]
  exact ⟨hb, delta_corr_consistent procW (fun _ => 0) [(0, 1)] 1 hb⟩

/-- C6: `compute_property` is the dot product of the correlation vector with
the coefficient vector, multiplied by the supercell size, and
`compute_property_change` is the dot product of `delta_corr` with the
coefficient vector, multiplied by the same size. -/
theorem compute_property_is_dot_times_size (P : Processor) (occu : Occu) (flips : MCStep) :
    P.compute_property occu
        = (∑ i in Finset.range P.n_orbit_functions,
              P.compute_correlation occu i * P.ecis i) * (P.size : ℚ)
      ∧ P.compute_property_change occu flips
        = (∑ i in Finset.range P.n_orbit_functions,
              P.delta_corr flips occu i * P.ecis i) * (P.size : ℚ) := by
  constructor
  · rw [Processor.compute_property, dotRange_eq_finset_sum]
  · rw [Processor.compute_property_change, dotRange_eq_finset_sum]

/-- C7: every by-site adjacency entry comes from an orbit whose instance array
mentions the site, stores exactly the subset of instance rows containing the
site, and stores a ratio satisfying
`ratio * (number of instances containing s) = total number of instances`;
conversely every orbit whose instance array mentions the site contributes its
entry. -/
theorem orbits_by_sites_spec (L : List Orbit) (s : ℕ) :
    (∀ e ∈ orbitsBySites L s, ∃ o, o ∈ L ∧ e = siteEntry o s
        ∧ e.inds = o.inds.filter (fun row => decide (s ∈ row))
        ∧ e.ratio * ((e.inds.length : ℚ)) = (o.inds.length : ℚ))
      ∧ ∀ o ∈ L, (∃ row ∈ o.inds, s ∈ row) → siteEntry o s ∈ orbitsBySites L s := by
  constructor
  · intro e he
    rw [orbitsBySites, List.mem_map] at he
    obtain ⟨o, ho, rfl⟩ := he
    obtain ⟨hoL, hp⟩ := List.mem_filter.mp ho
    refine ⟨o, hoL, rfl, rfl, ?_⟩
    have hex : ∃ row ∈ o.inds, s ∈ row := by simpa using hp
    obtain ⟨row, hrow, hs⟩ := hex
    have hmem : row ∈ rowsWithSite s o.inds := by
      rw [rowsWithSite, List.mem_filter]
      exact ⟨hrow, by simpa using hs⟩
    have hlen : (rowsWithSite s o.inds).length ≠ 0 := by
      intro h0
      rw [List.length_eq_zero.mp h0] at hmem
      exact (List.not_mem_nil row) hmem
    have hmQ : (((rowsWithSite s o.inds).length : ℚ)) ≠ 0 := Nat.cast_ne_zero.mpr hlen
    show (siteEntry o s).ratio * (((siteEntry o s).inds.length : ℚ)) = _
    simp only [siteEntry]
    exact div_mul_cancel₀ _ hmQ
  · rintro o hoL ⟨row, hrow, hs⟩
    rw [orbitsBySites, List.mem_map]
    refine ⟨o, ?_, rfl⟩
    rw [List.mem_filter]
    refine ⟨hoL, ?_⟩
    rw [List.any_eq_true]
    exact ⟨row, hrow, by simpa using hs⟩

/-- Witness for C7 at a concrete orbit list and site. -/
theorem orbits_by_sites_spec_witness :
    siteEntry orbitW 0 ∈ orbitsBySites [orbitW] 0
      ∧ (siteEntry orbitW 0).ratio * (((siteEntry orbitW 0).inds.length : ℚ))
          = ((orbitW.inds.length : ℚ)) := by
  refine ⟨(orbits_by_sites_spec [orbitW] 0).2 orbitW (List.mem_singleton.mpr rfl) ?_, ?_⟩
  · exact ⟨[0], by simp [orbitW], by simp⟩
  · norm_num [siteEntry, orbitW, rowsWithSite]

/-- C2: in `Metropolis.single_step` the exponent is
`-beta * delta_enthalpy + delta_bias`; when the exponent is nonnegative the
step is accepted unconditionally and the pseudo random stream is left exactly
where the usher left it (no draw in the acceptance test); otherwise exactly
one fresh uniform draw `u` is consumed and the step is accepted iff
`log u < exponent`. -/
theorem metropolis_acceptance_rule (K : KernelCfg) (occu : Occu) (g : RNG) :
    (0 ≤ exponentOf K occu g →
        (metropolis_core K occu g).1.accept = true
          ∧ (metropolis_core K occu g).2 = (K.propose occu g).2)
      ∧ (exponentOf K occu g < 0 →
          (metropolis_core K occu g).1.accept
              = decide (K.rlog ((K.propose occu g).2.stream ((K.propose occu g).2.pos))
                  < exponentOf K occu g)
            ∧ (metropolis_core K occu g).2.stream = (K.propose occu g).2.stream
            ∧ (metropolis_core K occu g).2.pos = (K.propose occu g).2.pos + 1) := by
  constructor
  · intro h
    simp only [exponentOf, proposalOf] at h
    simp only [metropolis_core]
    rw [if_pos h]
    exact ⟨rfl, rfl⟩
  · intro h
    have h2 : ¬ (0 ≤ -K.beta
        * dotRange K.natural_params (K.feature_change occu (K.propose occu g).1) K.nfeat
        + biasOf K occu (K.propose occu g).1) := by
      simp only [exponentOf, proposalOf] at h
      exact not_le.mpr h
    simp only [metropolis_core]
    rw [if_neg h2]
    exact ⟨rfl, rfl, rfl⟩

/-- Witness for C2 at a concrete kernel whose proposed step has a strictly
negative exponent. -/
theorem metropolis_acceptance_rule_witness :
    exponentOf kernelNeg (fun _ => 0) rngW < 0
      ∧ (metropolis_core kernelNeg (fun _ => 0) rngW).1.accept
          = decide (kernelNeg.rlog
                ((kernelNeg.propose (fun _ => 0) rngW).2.stream
                  ((kernelNeg.propose (fun _ => 0) rngW).2.pos))
              < exponentOf kernelNeg (fun _ => 0) rngW)
      ∧ (metropolis_core kernelNeg (fun _ => 0) rngW).2.pos
          = (kernelNeg.propose (fun _ => 0) rngW).2.pos + 1 := by
  have h : exponentOf kernelNeg (fun _ => 0) rngW < 0 := by
    norm_num [exponentOf, proposalOf, biasOf, kernelNeg, dotRange, rngW]
  obtain ⟨ha, _, hp⟩ := (metropolis_acceptance_rule kernelNeg (fun _ => 0) rngW).2 h
  exact ⟨h, ha, hp⟩

/-- C3 counterexample: a Metropolis kernel whose usher proposes the empty step
and which has no bias reports the empty step as accepted, not as the rejection
the claim requires. -/
theorem empty_step_accepted_counterexample :
    ¬ ((metropolis_single_step kernelEmptyStep (fun _ => 0) rngW).1.head?
        = some (PyVal.bool false)) := by
  norm_num [metropolis_single_step, metropolis_core, kernelEmptyStep, biasOf, dotRange,
    applyStep, rngW]

/-- C3 as amended: on an empty proposed step `Metropolis.single_step` still
evaluates the feature-vector change; with no bias configured and the feature
change of the empty step being the zero vector (as the processor computes),
the exponent is 0, so the call reports `accepted = True` with the occupancy
unchanged, a zero feature-vector change and zero potential change, consuming
no draw beyond the proposal; `UniformlyRandom.single_step` likewise reports
`accepted = True`. -/
theorem empty_step_behavior (K : KernelCfg) (occu : Occu) (g : RNG)
    (hprop : (K.propose occu g).1 = [])
    (hbias : K.bias = none)
    (hfc : K.feature_change occu [] = fun _ => 0) :
    metropolis_single_step K occu g
        = ([PyVal.bool true, PyVal.occu occu, PyVal.num 0, PyVal.vec (fun _ => 0)],
            (K.propose occu g).2)
      ∧ uniformly_random_single_step K occu g
        = ([PyVal.bool true, PyVal.occu occu, PyVal.num 0, PyVal.vec (fun _ => 0)],
            (K.propose occu g).2) := by
  constructor
  · simp only [metropolis_single_step, metropolis_core, hprop, hfc, hbias, biasOf,
      dotRange_zero_right, applyStep, List.foldl_nil]
    norm_num
  · simp only [uniformly_random_single_step, hprop, hfc, dotRange_zero_right, applyStep,
      List.foldl_nil]

/-- Witness for the amended C3 at a concrete kernel proposing the empty step. -/
theorem empty_step_behavior_witness :
    (kernelEmptyStep.propose (fun _ => 0) rngW).1 = ([] : MCStep)
      ∧ metropolis_single_step kernelEmptyStep (fun _ => 0) rngW
          = ([PyVal.bool true, PyVal.occu (fun _ => 0), PyVal.num 0,
                PyVal.vec (fun _ => 0)],
              (kernelEmptyStep.propose (fun _ => 0) rngW).2) :=
  ⟨rfl, (empty_step_behavior kernelEmptyStep (fun _ => 0) rngW rfl rfl rfl).1⟩

/-- C4 (code bug): constructing a Metropolis (or any MCKernel-derived) kernel
with `bias_type=None` raises `ValueError` instead of configuring no bias,
because `self.valid_bias[bias_type]` raises `KeyError` on the empty `ALL_BIAS`
registry; indeed every bias type fails.  The dead `single_step` path that the
claim describes would use `delta_bias = 0`: a kernel whose bias is `None`
behaves exactly like one whose bias change is constantly zero. -/
theorem mckernel_init_bias_none_raises :
    metropolis_init "flip" none
        = Except.error "Bias type None is not valid for a MCKernel."
      ∧ (∀ bt : String, metropolis_init "flip" (some bt)
          = Except.error ("Bias type " ++ bt ++ " is not valid for a MCKernel."))
      ∧ ∀ (K : KernelCfg) (occu : Occu) (g : RNG),
          metropolis_core { K with bias := none } occu g
            = metropolis_core { K with bias := some (fun _ _ => 0) } occu g := by
  refine ⟨rfl, fun bt => rfl, fun K occu g => ?_⟩
  simp [metropolis_core, biasOf]

/-- C5 counterexample: at a concrete kernel, occupancy and stream, the return
tuple of `Metropolis.single_step` (kernel.py) is not
`(accepted, occupancy, delta_features, delta_potential)`: its third component
is the scalar potential change, not the feature-vector change. -/
theorem single_step_tuple_order_counterexample :
    ¬ ((metropolis_single_step kernelEmptyStep (fun _ => 0) rngW).1
        = [PyVal.bool true, PyVal.occu (fun _ => 0), PyVal.vec (fun _ => 0),
            PyVal.num 0]) := by
  norm_num [metropolis_single_step, metropolis_core, kernelEmptyStep, biasOf, dotRange,
    applyStep, rngW]
  intro h
  exact PyVal.noConfusion h

/-- C5 as amended: `Metropolis.single_step` (kernel.py) returns the 4-tuple
`(accepted, occupancy, delta_potential, delta_features)` — scalar third,
feature change fourth — while `MetropolisSampler._attempt_step`
(metropolis.py) returns `(accepted, occupancy, delta_features,
delta_potential)` exactly as the claim states. -/
theorem single_step_tuple_order (K : KernelCfg) (occu : Occu) (g : RNG) :
    (metropolis_single_step K occu g).1
        = [PyVal.bool (metropolis_core K occu g).1.accept,
            PyVal.occu (metropolis_core K occu g).1.occu,
            PyVal.num (metropolis_core K occu g).1.enth,
            PyVal.vec (metropolis_core K occu g).1.feat]
      ∧ (sampler_attempt_step K occu g).1
        = [PyVal.bool (sampler_attempt_core K occu g).1.accept,
            PyVal.occu (sampler_attempt_core K occu g).1.occu,
            PyVal.vec (sampler_attempt_core K occu g).1.feat,
            PyVal.num (sampler_attempt_core K occu g).1.enth]
      ∧ (metropolis_core K occu g).1.enth
          = dotRange K.natural_params (K.feature_change occu (proposalOf K occu g)) K.nfeat
      ∧ (metropolis_core K occu g).1.feat
          = K.feature_change occu (proposalOf K occu g)
      ∧ (sampler_attempt_core K occu g).1.enth
          = dotRange K.natural_params (K.feature_change occu (proposalOf K occu g)) K.nfeat
      ∧ (sampler_attempt_core K occu g).1.feat
          = K.feature_change occu (proposalOf K occu g) := by
  refine ⟨rfl, rfl, ?_, ?_, ?_, ?_⟩
  all_goals
    simp only [metropolis_core, sampler_attempt_core, proposalOf]
  all_goals
    split
  all_goals
    rfl

/-- C8: `Sampler.run` with `initial_occupancies=None` and an empty sample
container fails with the fatal `RuntimeError` message and produces no samples;
it never substitutes a default occupancy. -/
theorem run_no_initial_occupancy_errors (K : KernelCfg) (nsteps thin_by : ℕ) (g : RNG) :
    sampler_run K [] nsteps none thin_by g
      = Except.error
          "There are no saved samples to obtain the initial occupancies. These must be provided." :=
  rfl

/-- C9: two executions of `run` with the same kernel configuration, the same
seed (hence pointwise equal pseudo random streams) and the same initial
occupancy produce identical lists of saved samples; the sampler is a pure
function of these inputs. -/
theorem run_deterministic_under_seed (K : KernelCfg) (chain : List Occu)
    (nsteps thin_by : ℕ) (prng prng2 : ℕ → ℕ → ℚ) (seed : ℕ) (occu occu2 : Occu)
    (hstream : ∀ i, prng seed i = prng2 seed i) (hoccu : ∀ x, occu x = occu2 x) :
    sampler_run K chain nsteps (some occu) thin_by ⟨prng seed, 0⟩
      = sampler_run K chain nsteps (some occu2) thin_by ⟨prng2 seed, 0⟩ := by
  have h1 : prng seed = prng2 seed := funext hstream
  have h2 : occu = occu2 := funext hoccu
  rw [h1, h2]

/-- Witness for C9: two syntactically different but pointwise equal streams
and initial occupancies give equal saved samples. -/
theorem run_deterministic_under_seed_witness :
    sampler_run kernelNeg [] 2 (some (fun _ => 0)) 1 ⟨(fun _ _ => (1 : ℚ) / 2) 7, 0⟩
      = sampler_run kernelNeg [] 2 (some (fun x => 0 + 0 * x)) 1
          ⟨(fun _ (i : ℕ) => (1 : ℚ) / 2 + 0 * i) 7, 0⟩ :=
  run_deterministic_under_seed kernelNeg [] 2 1 (fun _ _ => (1 : ℚ) / 2)
    (fun _ (i : ℕ) => (1 : ℚ) / 2 + 0 * i) 7 (fun _ => 0) (fun x => 0 + 0 * x)
    (fun i => by simp) (fun x => by simp)

/-- C10: the sublattice serialization round trip fails: `as_dict` emits only
the keys `site_space`, `sites` and `active_sites`, while `from_dict` reads
`d['restricted_sites']`, so deserializing any `as_dict` output raises
`KeyError`. -/
theorem sublattice_roundtrip_fails (s : SLattice) :
    (sublattice_as_dict s).map Prod.fst = ["site_space", "sites", "active_sites"]
      ∧ sublattice_from_dict (sublattice_as_dict s)
          = Except.error "KeyError: restricted_sites" :=
  ⟨rfl, rfl⟩
